import Mathlib

/-!
Verification development for the SuriBrows chrome UI subsystem.

This file gives a shallow embedding of the address-field state machine
(`src/urlbar.rs`) and of the glyph-atlas builder and text-walk of the
chrome renderer (`src/chrome.rs`), and proves the spec's claims about them.

Rust strings are embedded as `List Char` (a Rust `String` is a sequence of
Unicode scalar values); byte offsets into a string are `Nat` values measured
with `Char.utf8Size`.  Rust operations that can panic (UTF-8 boundary
violations in slicing / insertion) are embedded as `Option`-returning
functions, `none` standing for the panic.
-/

namespace SuriBrows

/-! ## UTF-8 byte arithmetic on `List Char` -/

/-- Total UTF-8 byte length of a character list (Rust `str::len`). -/
def utf8Len (s : List Char) : Nat := (s.map Char.utf8Size).sum

/-- All valid character-boundary byte offsets of a string, in increasing
order: `0`, then each prefix byte length (Rust `str::is_char_boundary`). -/
def charBoundaries : List Char → List Nat
  | [] => [0]
  | c :: rest => 0 :: (charBoundaries rest).map (· + c.utf8Size)

/-- Split a character list at byte offset `pos`.  Returns `none` when `pos`
is not a character boundary or lies past the end (the situations in which
Rust string slicing / insertion panics). -/
def splitAtByte (s : List Char) (pos : Nat) : Option (List Char × List Char) :=
  if pos = 0 then some ([], s)
  else
    match s with
    | [] => none
    | c :: rest =>
      if pos < c.utf8Size then none
      else (splitAtByte rest (pos - c.utf8Size)).map (fun p => (c :: p.1, p.2))

/-! ## Rust `char::is_whitespace` and `str::trim` -/

/-- Rust `char::is_whitespace`: the Unicode `White_Space` property
(UAX #44), listed explicitly. -/
def rustIsWhitespace (c : Char) : Bool :=
  (0x0009 ≤ c.toNat && c.toNat ≤ 0x000D) || c.toNat = 0x0020 || c.toNat = 0x0085 ||
  c.toNat = 0x00A0 || c.toNat = 0x1680 || (0x2000 ≤ c.toNat && c.toNat ≤ 0x200A) ||
  c.toNat = 0x2028 || c.toNat = 0x2029 || c.toNat = 0x202F || c.toNat = 0x205F ||
  c.toNat = 0x3000

/-- Rust `str::trim`: drop leading and trailing `White_Space` characters. -/
def trimChars (s : List Char) : List Char :=
  ((s.dropWhile rustIsWhitespace).reverse.dropWhile rustIsWhitespace).reverse

/-! ## Model of the `url` crate

The address bar depends on the third-party `url` crate (a WHATWG URL
implementation).  The crate is not part of this repository, so it is
embedded here as a simplified model that is faithful on the class of
inputs the claims exercise:

* a parsed URL is a record of scheme, optional host, path and optional
  query (no credentials, port or fragment — none of the inputs under
  consideration carry them);
* per the WHATWG algorithm, ASCII tab, LF and CR are removed from the
  input before parsing;
* an input with no `scheme:` part is rejected (`RelativeUrlWithoutBase`);
* `http`/`https` URLs require a `//authority` with a nonempty host made
  of ASCII host characters (the model rejects hosts containing controls,
  whitespace, or URL delimiters, as the crate does), an empty path
  serializes as `/`;
* non-special schemes keep the remainder as an opaque path. -/

structure Url where
  scheme : List Char
  host : Option (List Char)
  path : List Char
  query : Option (List Char)
  deriving DecidableEq, Repr

namespace Url

/-- Rust `Url::host_str().unwrap_or("")`. -/
def hostStr (u : Url) : List Char := u.host.getD []

/-- The crate's serialization `Url::as_str` (also its `Display`). -/
def toStr (u : Url) : List Char :=
  u.scheme ++ (':' :: []) ++
  (match u.host with
   | some h => '/' :: '/' :: h
   | none => []) ++
  u.path ++
  (match u.query with
   | some q => '?' :: q
   | none => [])

/-- Scheme characters after the first: ASCII alphanumeric or `+`, `-`, `.`. -/
def isSchemeChar (c : Char) : Bool :=
  c.isAlphanum && c.toNat < 128 || c = '+' || c = '-' || c = '.'

/-- Characters the crate forbids inside a host (WHATWG forbidden host code
points, plus controls and non-ASCII, which the model also rejects so that
every modelled host is a plain ASCII host). -/
def isForbiddenHostChar (c : Char) : Bool :=
  c.toNat ≤ 0x20 || c.toNat ≥ 127 ||
  c = '#' || c = '/' || c = ':' || c = '<' || c = '>' || c = '?' ||
  c = '@' || c = '[' || c = '\\' || c = ']' || c = '^' || c = '|' ||
  c = '%'

/-- ASCII lowercasing of a character (schemes and hosts are lowercased). -/
def asciiLower (c : Char) : Char :=
  if 'A' ≤ c && c ≤ 'Z' then Char.ofNat (c.toNat + 32) else c

/-- Model of `Url::parse` (see the section comment for its scope). -/
def parse (input : List Char) : Option Url :=
  let s := input.filter (fun c => !(c = '\t' || c = '\n' || c = '\r'))
  match s.splitOn ':' with
  | [] => none
  | [_] => none
  | schemeRaw :: restParts =>
    let rest := (restParts.intersperse [':']).flatten
    let scheme := schemeRaw.map asciiLower
    if schemeRaw = [] then none
    else if !(schemeRaw.headI.isAlpha && schemeRaw.headI.toNat < 128) then none
    else if !(schemeRaw.all isSchemeChar) then none
    else if scheme = "http".toList || scheme = "https".toList then
      match rest with
      | '/' :: '/' :: afterSlashes =>
        let authority := afterSlashes.takeWhile (fun c => !(c = '/' || c = '?' || c = '#'))
        let tl := afterSlashes.dropWhile (fun c => !(c = '/' || c = '?' || c = '#'))
        if authority = [] then none
        else if authority.any isForbiddenHostChar then none
        else
          let host := authority.map asciiLower
          let path0 := tl.takeWhile (fun c => !(c = '?' || c = '#'))
          let path := if path0 = [] then ['/'] else path0
          let afterPath := tl.dropWhile (fun c => !(c = '?' || c = '#'))
          match afterPath with
          | '?' :: q => some ⟨scheme, some host, path, some (q.takeWhile (· ≠ '#'))⟩
          | _ => some ⟨scheme, some host, path, none⟩
      | _ => none
    else
      match rest.splitOn '?' with
      | [] => some ⟨scheme, none, [], none⟩
      | [p] => some ⟨scheme, none, p, none⟩
      | p :: q => some ⟨scheme, none, p, some ((q.intersperse ['?']).flatten)⟩

end Url

/-! ## Model of `url::form_urlencoded::byte_serialize` -/

/-- UTF-8 encoding of one Unicode scalar value, as a list of byte values. -/
def utf8Bytes (c : Char) : List Nat :=
  let n := c.toNat
  if n < 0x80 then [n]
  else if n < 0x800 then [0xC0 + n / 64, 0x80 + n % 64]
  else if n < 0x10000 then [0xE0 + n / 4096, 0x80 + n / 64 % 64, 0x80 + n % 64]
  else [0xF0 + n / 262144, 0x80 + n / 4096 % 64, 0x80 + n / 64 % 64, 0x80 + n % 64]

/-- Uppercase hexadecimal digit for a value below 16. -/
def hexDigit (n : Nat) : Char :=
  if n < 10 then Char.ofNat (48 + n) else Char.ofNat (55 + n)

/-- Encoding of one byte under `application/x-www-form-urlencoded`:
alphanumerics and `*`, `-`, `.`, `_` pass through, a space becomes `+`,
every other byte becomes `%XX` with uppercase hex. -/
def formEncodeByte (b : Nat) : List Char :=
  if (48 ≤ b && b ≤ 57) || (65 ≤ b && b ≤ 90) || (97 ≤ b && b ≤ 122) ||
     b = 42 || b = 45 || b = 46 || b = 95 then [Char.ofNat b]
  else if b = 32 then ['+']
  else ['%', hexDigit (b / 16), hexDigit (b % 16)]

/-- Model of `url::form_urlencoded::byte_serialize(input.as_bytes()).collect()`. -/
def byte_serialize (s : List Char) : List Char :=
  ((s.map utf8Bytes).flatten.map formEncodeByte).flatten



/-! ## Address-field state machine (`src/urlbar.rs`) -/

/-- The constant `DUCKDUCKGO_SEARCH` of `src/urlbar.rs`. -/
def DUCKDUCKGO_SEARCH : List Char := "https://duckduckgo.com/?q=".toList

/-- Characters filtered by `normalize_url_for_display`: zero-width space,
ZWNJ, ZWJ, word joiner, BOM, combining grapheme joiner, line separator,
paragraph separator. -/
def isInvisibleChar (c : Char) : Bool :=
  (0x200B ≤ c.toNat && c.toNat ≤ 0x200D) || c.toNat = 0x2060 || c.toNat = 0xFEFF ||
  c.toNat = 0x034F || c.toNat = 0x2028 || c.toNat = 0x2029

/-- The warning marker written by `normalize_url_for_display`
(U+26A0 U+FE0F followed by two spaces). -/
def punycodeWarnMarker : List Char := ['⚠', '️', ' ', ' ']

/-- The trailing label written by `normalize_url_for_display`. -/
def punycodeLabel : List Char := " (Punycode)".toList

/-- Embedding of `normalize_url_for_display` (`src/urlbar.rs:30`). -/
def normalize_url_for_display (url : Url) : List Char :=
  let host := url.hostStr
  if "xn--".toList.isPrefixOf host then
    punycodeWarnMarker ++ url.toStr ++ punycodeLabel
  else
    url.toStr.filter (fun c => !isInvisibleChar c)

/-- Embedding of `enum UrlBarFocus` (`src/urlbar.rs:62`). -/
inductive UrlBarFocus
  | Unfocused
  | Focused
  | Editing
  deriving DecidableEq, Repr

/-- Embedding of `struct UrlBar` (`src/urlbar.rs:73`).  The Rust field
`focus` is called `mode` here because the method `UrlBar::focus` keeps its
source name. -/
structure UrlBar where
  text : List Char
  cursor : Nat
  mode : UrlBarFocus
  current_url : Option Url
  deriving DecidableEq, Repr

namespace UrlBar

/-- Embedding of `UrlBar::new`. -/
def new : UrlBar := ⟨[], 0, .Unfocused, none⟩

/-- Embedding of `UrlBar::set_url`. -/
def set_url (b : UrlBar) (url : Url) : UrlBar :=
  let b := { b with current_url := some url }
  if b.mode = .Unfocused then
    let t := normalize_url_for_display url
    { b with text := t, cursor := utf8Len t }
  else b

/-- Embedding of `UrlBar::focus`. -/
def focus (b : UrlBar) : UrlBar :=
  { b with mode := .Focused, cursor := utf8Len b.text }

/-- Embedding of `UrlBar::unfocus`. -/
def unfocus (b : UrlBar) : UrlBar :=
  let b := { b with mode := .Unfocused }
  match b.current_url with
  | some url =>
    let t := normalize_url_for_display url
    { b with text := t, cursor := utf8Len t }
  | none => b

/-- Embedding of `UrlBar::insert_char`.  `String::insert` panics when the
cursor is not on a character boundary; the panic is the `none` result. -/
def insert_char (b : UrlBar) (c : Char) : Option UrlBar :=
  let b := if b.mode = .Focused then
    { b with text := [], cursor := 0, mode := .Editing } else b
  match splitAtByte b.text b.cursor with
  | some (pre, post) =>
    some { b with text := pre ++ c :: post, cursor := b.cursor + c.utf8Size }
  | none => none

/-- Embedding of `UrlBar::backspace`.  Slicing `text[..cursor]` panics off a
character boundary; the panic is the `none` result.  With the cursor on a
boundary, `prev` is the byte offset of the last character before the cursor,
and `drain(prev..cursor)` removes exactly that character. -/
def backspace (b : UrlBar) : Option UrlBar :=
  if b.mode = .Focused then
    some { b with text := [], cursor := 0, mode := .Editing }
  else if 0 < b.cursor then
    match splitAtByte b.text b.cursor with
    | some (pre, post) =>
      some { b with text := pre.dropLast ++ post, cursor := utf8Len pre.dropLast }
    | none => none
  else some b

/-- Embedding of `UrlBar::delete`.  Slicing `text[cursor..]` panics off a
character boundary; the panic is the `none` result.  `drain(cursor..next)`
removes the first character after the cursor (or nothing when the suffix is
empty, matching `unwrap_or(len)`). -/
def delete (b : UrlBar) : Option UrlBar :=
  if b.mode = .Focused then
    some { b with text := [], cursor := 0, mode := .Editing }
  else if b.cursor < utf8Len b.text then
    match splitAtByte b.text b.cursor with
    | some (pre, post) =>
      match post with
      | [] => some { b with text := pre }
      | _ :: rest => some { b with text := pre ++ rest }
    | none => none
  else some b

/-- Embedding of `UrlBar::move_cursor_left`. -/
def move_cursor_left (b : UrlBar) : Option UrlBar :=
  if b.mode = .Focused then
    some { b with mode := .Editing, cursor := 0 }
  else if 0 < b.cursor then
    match splitAtByte b.text b.cursor with
    | some (pre, _) => some { b with cursor := utf8Len pre.dropLast }
    | none => none
  else some b

/-- Embedding of `UrlBar::move_cursor_right`. -/
def move_cursor_right (b : UrlBar) : Option UrlBar :=
  if b.mode = .Focused then
    some { b with mode := .Editing }
  else if b.cursor < utf8Len b.text then
    match splitAtByte b.text b.cursor with
    | some (_, post) =>
      match post with
      | [] => some { b with cursor := utf8Len b.text }
      | a :: _ => some { b with cursor := b.cursor + a.utf8Size }
    | none => none
  else some b

/-- Embedding of `UrlBar::home`. -/
def home (b : UrlBar) : UrlBar :=
  let b := if b.mode = .Focused then { b with mode := .Editing } else b
  { b with cursor := 0 }

/-- Embedding of `UrlBar::end` (named `endKey`: `end` is a Lean keyword). -/
def endKey (b : UrlBar) : UrlBar :=
  let b := if b.mode = .Focused then { b with mode := .Editing } else b
  { b with cursor := utf8Len b.text }

/-- Embedding of `UrlBar::select_all`. -/
def select_all (b : UrlBar) : UrlBar :=
  { b with mode := .Focused, cursor := utf8Len b.text }

/-- Embedding of `UrlBar::is_focused`. -/
def is_focused (b : UrlBar) : Bool := b.mode ≠ .Unfocused

/-- Embedding of `UrlBar::cursor_char_offset`. -/
def cursor_char_offset (b : UrlBar) : Option Nat :=
  (splitAtByte b.text b.cursor).map (fun p => p.1.length)

end UrlBar

/-- First stage of `resolve_input` (`src/urlbar.rs:268`): the input already
parses with an `http`/`https` scheme. -/
def directNav (input : List Char) : Option Url :=
  match Url.parse input with
  | some url => if url.scheme = "http".toList || url.scheme = "https".toList
      then some url else none
  | none => none

/-- Second stage of `resolve_input` (`src/urlbar.rs:275`): the input looks
like a domain (contains `.`, no `' '` character) and parses once `https://`
is prepended. -/
def domainNav (input : List Char) : Option Url :=
  if input.contains '.' && !(input.contains ' ') then
    Url.parse ("https://".toList ++ input)
  else none

/-- Third stage of `resolve_input` (`src/urlbar.rs:282`): DuckDuckGo search
with the form-urlencoded input as the query. -/
def searchNav (input : List Char) : Option Url :=
  Url.parse (DUCKDUCKGO_SEARCH ++ byte_serialize input)

/-- Embedding of `resolve_input` (`src/urlbar.rs:266`): its three early
returns, in source order. -/
def resolve_input (input : List Char) : Option Url :=
  match directNav input with
  | some url => some url
  | none =>
    match domainNav input with
    | some url => some url
    | none => searchNav input

/-- Embedding of `UrlBar::submit` (`src/urlbar.rs:229`): the navigation
result together with the successor state. -/
def UrlBar.submit (b : UrlBar) : Option Url × UrlBar :=
  let input := trimChars b.text
  if input = [] then (none, b)
  else (resolve_input input, { b with mode := .Unfocused })

/-! ## Operations and reachable states of the address field -/

/-- One invocation of an address-field operation (the full operation set of
`impl UrlBar`). -/
inductive UrlBarOp
  | focus
  | unfocus
  | insert_char (c : Char)
  | backspace
  | delete
  | move_cursor_left
  | move_cursor_right
  | home
  | endKey
  | select_all
  | submit
  | set_url (url : Url)

/-- Apply one operation to a state.  `none` stands for a panic of the
underlying Rust string operation. -/
def UrlBarOp.apply : UrlBarOp → UrlBar → Option UrlBar
  | .focus, b => some b.focus
  | .unfocus, b => some b.unfocus
  | .insert_char c, b => b.insert_char c
  | .backspace, b => b.backspace
  | .delete, b => b.delete
  | .move_cursor_left, b => b.move_cursor_left
  | .move_cursor_right, b => b.move_cursor_right
  | .home, b => some b.home
  | .endKey, b => some b.endKey
  | .select_all, b => some b.select_all
  | .submit, b => some b.submit.2
  | .set_url url, b => some (b.set_url url)

/-- States reachable from `UrlBar::new` by non-panicking operation
sequences. -/
inductive ReachableBar : UrlBar → Prop
  | new : ReachableBar UrlBar.new
  | step {b b' : UrlBar} (op : UrlBarOp) :
      ReachableBar b → op.apply b = some b' → ReachableBar b'

/-- The cursor invariant of the data model: the cursor byte offset is a
character boundary of the text (hence in particular at most the byte
length). -/
def cursorOnBoundary (b : UrlBar) : Prop :=
  b.cursor ∈ charBoundaries b.text

/-! ## Lemmas about byte offsets and boundaries -/

theorem utf8Len_nil : utf8Len [] = 0 := rfl

theorem utf8Len_cons (c : Char) (s : List Char) :
    utf8Len (c :: s) = c.utf8Size + utf8Len s := by
  simp [utf8Len]

theorem utf8Len_append (s t : List Char) :
    utf8Len (s ++ t) = utf8Len s + utf8Len t := by
  simp [utf8Len]

theorem utf8Len_eq_zero {s : List Char} (h : utf8Len s = 0) : s = [] := by
  cases s with
  | nil => rfl
  | cons c rest =>
    rw [utf8Len_cons] at h
    have := c.utf8Size_pos
    omega

theorem zero_mem_charBoundaries (s : List Char) : 0 ∈ charBoundaries s := by
  cases s <;> simp [charBoundaries]

theorem mem_charBoundaries_le {s : List Char} {p : Nat}
    (h : p ∈ charBoundaries s) : p ≤ utf8Len s := by
  induction s generalizing p with
  | nil => simp [charBoundaries] at h; omega
  | cons c rest ih =>
    simp only [charBoundaries, List.mem_cons, List.mem_map] at h
    rcases h with h | ⟨q, hq, rfl⟩
    · omega
    · have := ih hq
      rw [utf8Len_cons]
      omega

theorem utf8Len_mem_charBoundaries_append (pre post : List Char) :
    utf8Len pre ∈ charBoundaries (pre ++ post) := by
  induction pre with
  | nil => simpa using zero_mem_charBoundaries post
  | cons c rest ih =>
    simp only [List.cons_append, charBoundaries, utf8Len_cons, List.mem_cons,
      List.mem_map]
    right
    exact ⟨utf8Len rest, ih, by omega⟩

theorem utf8Len_mem_charBoundaries (s : List Char) :
    utf8Len s ∈ charBoundaries s := by
  simpa using utf8Len_mem_charBoundaries_append s []

theorem splitAtByte_of_mem {s : List Char} {p : Nat}
    (h : p ∈ charBoundaries s) :
    ∃ pre post, splitAtByte s p = some (pre, post) ∧ pre ++ post = s ∧
      utf8Len pre = p := by
  induction s generalizing p with
  | nil =>
    simp [charBoundaries] at h
    subst h
    exact ⟨[], [], rfl, rfl, rfl⟩
  | cons c rest ih =>
    by_cases hp : p = 0
    · subst hp
      exact ⟨[], c :: rest, by simp [splitAtByte], rfl, rfl⟩
    · simp only [charBoundaries, List.mem_cons, List.mem_map] at h
      rcases h with h | ⟨q, hq, hqp⟩
      · exact absurd h hp
      · obtain ⟨pre, post, hsplit, happ, hlen⟩ := ih hq
        refine ⟨c :: pre, post, ?_, by simp [happ], ?_⟩
        · have hlt : ¬ p < c.utf8Size := by omega
          simp only [splitAtByte, if_neg hp, if_neg hlt]
          have : p - c.utf8Size = q := by omega
          rw [this, hsplit]
          rfl
        · rw [utf8Len_cons, hlen]
          omega

theorem cursorOnBoundary_new : cursorOnBoundary UrlBar.new :=
  zero_mem_charBoundaries _

/-- Key preservation lemma: from a state whose cursor sits on a character
boundary, every operation completes without panicking and re-establishes
the boundary invariant. -/
theorem apply_some_of_cursorOnBoundary {b : UrlBar} (hb : cursorOnBoundary b)
    (op : UrlBarOp) :
    ∃ b', op.apply b = some b' ∧ cursorOnBoundary b' := by
  cases op with
  | focus =>
    exact ⟨_, rfl, utf8Len_mem_charBoundaries b.text⟩
  | unfocus =>
    refine ⟨_, rfl, ?_⟩
    unfold UrlBar.unfocus
    cases b.current_url with
    | some url => exact utf8Len_mem_charBoundaries _
    | none => exact hb
  | home =>
    refine ⟨_, rfl, ?_⟩
    unfold UrlBar.home
    split <;> exact zero_mem_charBoundaries _
  | endKey =>
    refine ⟨_, rfl, ?_⟩
    unfold UrlBar.endKey
    split <;> exact utf8Len_mem_charBoundaries _
  | select_all =>
    exact ⟨_, rfl, utf8Len_mem_charBoundaries b.text⟩
  | submit =>
    refine ⟨_, rfl, ?_⟩
    unfold UrlBar.submit
    by_cases h : trimChars b.text = [] <;> simp only [h, reduceIte] <;> exact hb
  | set_url url =>
    refine ⟨_, rfl, ?_⟩
    unfold UrlBar.set_url
    by_cases h : b.mode = UrlBarFocus.Unfocused <;> simp only [h, reduceIte] <;>
      first
        | exact utf8Len_mem_charBoundaries _
        | exact hb
  | insert_char c =>
    unfold UrlBarOp.apply UrlBar.insert_char
    by_cases hf : b.mode = .Focused
    · simp only [hf, if_pos, reduceIte, splitAtByte]
      exact ⟨_, rfl, by
        show 0 + c.utf8Size ∈ charBoundaries ([] ++ c :: [])
        simpa using utf8Len_mem_charBoundaries_append [c] []⟩
    · simp only [if_neg hf]
      obtain ⟨pre, post, hsplit, happ, hlen⟩ := splitAtByte_of_mem hb
      rw [hsplit]
      refine ⟨_, rfl, ?_⟩
      show b.cursor + c.utf8Size ∈ charBoundaries (pre ++ c :: post)
      have h1 : pre ++ c :: post = (pre ++ [c]) ++ post := by simp
      have h2 : b.cursor + c.utf8Size = utf8Len (pre ++ [c]) := by
        rw [utf8Len_append, utf8Len_cons, utf8Len_nil, hlen]
        omega
      rw [h1, h2]
      exact utf8Len_mem_charBoundaries_append (pre ++ [c]) post
  | backspace =>
    unfold UrlBarOp.apply UrlBar.backspace
    by_cases hf : b.mode = .Focused
    · simp only [hf, reduceIte]
      exact ⟨_, rfl, zero_mem_charBoundaries _⟩
    · simp only [if_neg hf]
      by_cases hc : 0 < b.cursor
      · simp only [if_pos hc]
        obtain ⟨pre, post, hsplit, happ, hlen⟩ := splitAtByte_of_mem hb
        rw [hsplit]
        exact ⟨_, rfl, utf8Len_mem_charBoundaries_append pre.dropLast post⟩
      · simp only [if_neg hc]
        exact ⟨_, rfl, hb⟩
  | delete =>
    unfold UrlBarOp.apply UrlBar.delete
    by_cases hf : b.mode = .Focused
    · simp only [hf, reduceIte]
      exact ⟨_, rfl, zero_mem_charBoundaries _⟩
    · simp only [if_neg hf]
      by_cases hc : b.cursor < utf8Len b.text
      · simp only [if_pos hc]
        obtain ⟨pre, post, hsplit, happ, hlen⟩ := splitAtByte_of_mem hb
        rw [hsplit]
        cases post with
        | nil =>
          refine ⟨_, rfl, ?_⟩
          show b.cursor ∈ charBoundaries pre
          rw [← hlen]
          exact utf8Len_mem_charBoundaries pre
        | cons a rest =>
          refine ⟨_, rfl, ?_⟩
          show b.cursor ∈ charBoundaries (pre ++ rest)
          rw [← hlen]
          exact utf8Len_mem_charBoundaries_append pre rest
      · simp only [if_neg hc]
        exact ⟨_, rfl, hb⟩
  | move_cursor_left =>
    unfold UrlBarOp.apply UrlBar.move_cursor_left
    by_cases hf : b.mode = .Focused
    · simp only [hf, reduceIte]
      exact ⟨_, rfl, zero_mem_charBoundaries _⟩
    · simp only [if_neg hf]
      by_cases hc : 0 < b.cursor
      · simp only [if_pos hc]
        obtain ⟨pre, post, hsplit, happ, hlen⟩ := splitAtByte_of_mem hb
        rw [hsplit]
        refine ⟨_, rfl, ?_⟩
        show utf8Len pre.dropLast ∈ charBoundaries b.text
        have hpre : pre ≠ [] := by
          intro h
          rw [h] at hlen
          simp [utf8Len_nil] at hlen
          omega
        have hdec : pre.dropLast ++ (pre.getLast hpre :: post) = b.text := by
          rw [← happ]
          conv_rhs => rw [← List.dropLast_append_getLast hpre]
          rw [List.append_assoc, List.singleton_append]
        rw [← hdec]
        exact utf8Len_mem_charBoundaries_append _ _
      · simp only [if_neg hc]
        exact ⟨_, rfl, hb⟩
  | move_cursor_right =>
    unfold UrlBarOp.apply UrlBar.move_cursor_right
    by_cases hf : b.mode = .Focused
    · simp only [hf, reduceIte]
      exact ⟨_, rfl, hb⟩
    · simp only [if_neg hf]
      by_cases hc : b.cursor < utf8Len b.text
      · simp only [if_pos hc]
        obtain ⟨pre, post, hsplit, happ, hlen⟩ := splitAtByte_of_mem hb
        rw [hsplit]
        cases post with
        | nil =>
          exact ⟨_, rfl, utf8Len_mem_charBoundaries b.text⟩
        | cons a rest =>
          refine ⟨_, rfl, ?_⟩
          show b.cursor + a.utf8Size ∈ charBoundaries b.text
          have h1 : b.text = (pre ++ [a]) ++ rest := by simp [← happ]
          have h2 : b.cursor + a.utf8Size = utf8Len (pre ++ [a]) := by
            rw [utf8Len_append, utf8Len_cons, utf8Len_nil, hlen]
            omega
          rw [h1, h2]
          exact utf8Len_mem_charBoundaries_append (pre ++ [a]) rest
      · simp only [if_neg hc]
        exact ⟨_, rfl, hb⟩

/-! ## Claims about the address-field state machine -/

/-- Every reachable state satisfies the cursor-boundary invariant. -/
theorem reachableBar_cursorOnBoundary {b : UrlBar} (hb : ReachableBar b) :
    cursorOnBoundary b := by
  induction hb with
  | new => exact cursorOnBoundary_new
  | step op hr hstep ih =>
    obtain ⟨b2, h1, h2⟩ := apply_some_of_cursorOnBoundary ih op
    rw [hstep] at h1
    injection h1 with h
    subst h
    exact h2

/-- Claim C4 (confirmed).  State invariant preserved by every operation of
the address-field state machine, starting from the initial state: the
cursor byte offset is always in `[0, text length]` and always lies on a
character boundary of the text. -/
theorem claim_C4_cursor_invariant {b : UrlBar} (hb : ReachableBar b) :
    b.cursor ≤ utf8Len b.text ∧ b.cursor ∈ charBoundaries b.text :=
  ⟨mem_charBoundaries_le (reachableBar_cursorOnBoundary hb),
    reachableBar_cursorOnBoundary hb⟩

/-- Witness for C4, at the reachable state reached by `focus()` then
`insert_char('é')` from a fresh bar (a two-byte character, so the cursor
byte offset 2 differs from the character count 1). -/
theorem claim_C4_witness :
    (⟨['é'], 2, .Editing, none⟩ : UrlBar).cursor ≤
        utf8Len (⟨['é'], 2, .Editing, none⟩ : UrlBar).text ∧
      (⟨['é'], 2, .Editing, none⟩ : UrlBar).cursor ∈
        charBoundaries (⟨['é'], 2, .Editing, none⟩ : UrlBar).text :=
  by
  have h1 : ReachableBar UrlBar.new.focus :=
    ReachableBar.step .focus ReachableBar.new (by decide)
  exact claim_C4_cursor_invariant
    (ReachableBar.step (.insert_char 'é') h1 (by decide))

/-- Claim C5 (confirmed).  No operation of the address-field state machine
panics on any reachable state (including the fresh bar): every operation's
embedding returns `some`, i.e. the panicking branch of each partial string
operation is unreachable. -/
theorem claim_C5_no_panic {b : UrlBar} (hb : ReachableBar b) (op : UrlBarOp) :
    (op.apply b).isSome = true := by
  obtain ⟨b2, h1, _⟩ :=
    apply_some_of_cursorOnBoundary (reachableBar_cursorOnBoundary hb) op
  rw [h1]
  rfl

/-- Witness for C5: an edit operation on a freshly created bar, before any
`focus()` call, completes normally. -/
theorem claim_C5_witness :
    ((UrlBarOp.backspace).apply UrlBar.new).isSome = true :=
  claim_C5_no_panic ReachableBar.new .backspace

/-- Claim C3 (confirmed).  Replace-on-type: for every starting state, after
`focus()` the first `insert_char('x')` yields text exactly `"x"`, mode
`Editing`, and cursor at the byte length of `'x'`. -/
theorem claim_C3_replace_on_type (b : UrlBar) :
    (b.focus).insert_char 'x' =
      some ⟨['x'], 'x'.utf8Size, .Editing, b.current_url⟩ := rfl

/-- Claim C9 (confirmed).  Submitting a field whose trimmed text is empty
yields no destination. -/
theorem claim_C9_empty_submit {b : UrlBar} (h : trimChars b.text = []) :
    b.submit.1 = none := by
  simp [UrlBar.submit, h]

/-- Witness for C9: `submit("")` and `submit("   ")` both yield no
destination. -/
theorem claim_C9_witness :
    ({ UrlBar.new with text := "".toList } : UrlBar).submit.1 = none ∧
      ({ UrlBar.new with text := "   ".toList } : UrlBar).submit.1 = none :=
  ⟨claim_C9_empty_submit (by decide), claim_C9_empty_submit (by decide)⟩

/-- Claim C10 (confirmed).  Frame condition of `submit()`: the text, the
cursor byte offset and the recorded current URL are unchanged in every
state; only the focus mode may change. -/
theorem claim_C10_submit_frame (b : UrlBar) :
    b.submit.2.text = b.text ∧ b.submit.2.cursor = b.cursor ∧
      b.submit.2.current_url = b.current_url := by
  unfold UrlBar.submit
  by_cases h : trimChars b.text = [] <;> simp [h]

/-- Counterexample to claim C1 as stated: on a focused empty bar, `submit()`
returns early without transitioning to unfocused — the focus mode stays
`Focused`. -/
theorem claim_C1_counterexample :
    ((UrlBar.new.focus).submit).2.mode = UrlBarFocus.Focused ∧
      UrlBarFocus.Focused ≠ UrlBarFocus.Unfocused := by decide

/-- Claim C1 (corrected).  `submit()` transitions to unfocused whenever the
trimmed text is nonempty; when the trimmed text is empty it returns no
destination and leaves the state (focus mode included) unchanged. -/
theorem claim_C1_amended (b : UrlBar) :
    (trimChars b.text = [] → b.submit = (none, b)) ∧
      (trimChars b.text ≠ [] → b.submit.2.mode = UrlBarFocus.Unfocused) := by
  unfold UrlBar.submit
  constructor
  · intro h
    simp [h]
  · intro h
    simp [h]

/-- Witness for the amended C1, on an empty focused bar and on a nonempty
one. -/
theorem claim_C1_witness :
    (UrlBar.new.focus).submit = (none, UrlBar.new.focus) ∧
      ({ UrlBar.new with text := "hi.com".toList } : UrlBar).submit.2.mode =
        UrlBarFocus.Unfocused :=
  ⟨(claim_C1_amended _).1 (by decide), (claim_C1_amended _).2 (by decide)⟩

/-- Invisible characters all lie above the ASCII range. -/
theorem isInvisibleChar_eq_false_of_ascii {c : Char} (h : c.toNat ≤ 127) :
    isInvisibleChar c = false := by
  unfold isInvisibleChar
  simp only [Bool.or_eq_false_iff, Bool.and_eq_false_iff, decide_eq_false_iff_not]
  omega

/-- Claim C6 (confirmed).  Display normalization: a URL whose host starts
with the IDN ASCII prefix `xn--` is displayed as the full URL string with
the warning marker in front and the punycode label behind; any other URL is
displayed as its standard string form with the zero-width/invisible
characters removed, so that the normalized output never contains such a
character, and an ordinary all-ASCII URL displays exactly as its standard
string form. -/
theorem claim_C6_display_normalization (u : Url) :
    ("xn--".toList.isPrefixOf u.hostStr = true →
      normalize_url_for_display u = punycodeWarnMarker ++ u.toStr ++ punycodeLabel) ∧
    ("xn--".toList.isPrefixOf u.hostStr = false →
      normalize_url_for_display u = u.toStr.filter (fun c => !isInvisibleChar c) ∧
      ∀ c ∈ normalize_url_for_display u, isInvisibleChar c = false) ∧
    ("xn--".toList.isPrefixOf u.hostStr = false →
      (∀ c ∈ u.toStr, c.toNat ≤ 127) →
      normalize_url_for_display u = u.toStr) := by
  refine ⟨fun h => ?_, fun h => ⟨?_, ?_⟩, fun h hascii => ?_⟩
  · simp only [normalize_url_for_display, h, reduceIte]
  · simp only [normalize_url_for_display, h, Bool.false_eq_true, if_false]
  · intro c hc
    simp only [normalize_url_for_display, h, Bool.false_eq_true, if_false] at hc
    rw [List.mem_filter] at hc
    simpa using hc.2
  · have hall : ∀ c ∈ u.toStr, (!isInvisibleChar c) = true := by
      intro c hc
      rw [isInvisibleChar_eq_false_of_ascii (hascii c hc)]
      rfl
    simp only [normalize_url_for_display, h, Bool.false_eq_true, if_false]
    exact List.filter_eq_self.mpr hall

/-- Witness for C6: the punycode URL of the module's doc example, and an
ordinary ASCII URL. -/
theorem claim_C6_witness :
    ("xn--".toList.isPrefixOf
        (⟨"https".toList, some "xn--ggle-0nd.com".toList, "/".toList, none⟩ : Url).hostStr = true ∧
      normalize_url_for_display
          (⟨"https".toList, some "xn--ggle-0nd.com".toList, "/".toList, none⟩ : Url) =
        punycodeWarnMarker ++
          (⟨"https".toList, some "xn--ggle-0nd.com".toList, "/".toList, none⟩ : Url).toStr ++
          punycodeLabel) ∧
    ("xn--".toList.isPrefixOf
        (⟨"https".toList, some "google.com".toList, "/path".toList,
          some "query=value".toList⟩ : Url).hostStr = false ∧
      normalize_url_for_display
          (⟨"https".toList, some "google.com".toList, "/path".toList,
            some "query=value".toList⟩ : Url) =
        (⟨"https".toList, some "google.com".toList, "/path".toList,
          some "query=value".toList⟩ : Url).toStr) :=
  ⟨⟨by decide, (claim_C6_display_normalization _).1 (by decide)⟩,
    ⟨by decide, (claim_C6_display_normalization _).2.2 (by decide) (by decide)⟩⟩

/-! ## Claim C2: input resolution -/

/-- Counterexample to claim C2 as stated.  The input `"a.b\tc"` contains a
`.` and a whitespace character (the tab), so per the claim it should fall to
branch (c) and yield the search-engine URL; the code checks only for the
space character `' '`, takes branch (b), and the WHATWG parser strips the
tab, yielding the destination `https://a.bc/` instead of a DuckDuckGo
search. -/
theorem claim_C2_counterexample :
    resolve_input "a.b\tc".toList =
        some ⟨"https".toList, some "a.bc".toList, "/".toList, none⟩ ∧
      Url.parse "a.b\tc".toList = none ∧
      rustIsWhitespace '\t' = true ∧
      "a.b\tc".toList.contains '.' = true ∧
      trimChars "a.b\tc".toList = "a.b\tc".toList ∧
      some (⟨"https".toList, some "a.bc".toList, "/".toList, none⟩ : Url) ≠
        Url.parse (DUCKDUCKGO_SEARCH ++ byte_serialize "a.b\tc".toList) := by
  decide

/-- Claim C2 (corrected).  For every input, `resolve_input` follows the
cascade: (a) an input parsing as an `http`/`https` URL is the destination;
(b) otherwise, an input containing `.` and no `' '` (an ASCII space — not
every whitespace character, which is what the counterexample exhibits)
whose `https://`-prefixed form parses is that parsed URL; (c) otherwise the
destination is the search-engine URL with the form-urlencoded input
appended as the query.  Moreover `submit` on `"example.com"` yields an
`https` destination with host `example.com`, and on `"hello world"` a
destination extending the search prefix whose query carries the encoded
text. -/
theorem claim_C2_amended :
    (∀ input u, Url.parse input = some u →
        (u.scheme = "http".toList ∨ u.scheme = "https".toList) →
        resolve_input input = some u) ∧
    (∀ input u, directNav input = none →
        input.contains '.' = true → input.contains ' ' = false →
        Url.parse ("https://".toList ++ input) = some u →
        resolve_input input = some u) ∧
    (∀ input, directNav input = none →
        (input.contains '.' = false ∨ input.contains ' ' = true ∨
          Url.parse ("https://".toList ++ input) = none) →
        resolve_input input =
          Url.parse (DUCKDUCKGO_SEARCH ++ byte_serialize input)) ∧
    (({ UrlBar.new with text := "example.com".toList } : UrlBar).submit.1.map
        Url.scheme = some "https".toList ∧
      ({ UrlBar.new with text := "example.com".toList } : UrlBar).submit.1.map
        Url.hostStr = some "example.com".toList) ∧
    (∃ u, ({ UrlBar.new with text := "hello world".toList } : UrlBar).submit.1 =
        some u ∧
      DUCKDUCKGO_SEARCH.isPrefixOf u.toStr = true ∧
      u.query = some ("q=".toList ++ byte_serialize "hello world".toList)) := by
  refine ⟨?_, ?_, ?_, by decide, ?_⟩
  · intro input u hparse hscheme
    have hdirect : directNav input = some u := by
      unfold directNav
      rw [hparse]
      rcases hscheme with h | h <;> simp [h]
    unfold resolve_input
    rw [hdirect]
  · intro input u hdirect hdot hspace hparse
    have hdomain : domainNav input = some u := by
      unfold domainNav
      rw [hdot, hspace]
      simpa using hparse
    unfold resolve_input
    rw [hdirect, hdomain]
  · intro input hdirect hdisj
    have hdomain : domainNav input = none := by
      unfold domainNav
      rcases hdisj with h | h | h
      · simp only [h, Bool.false_and, Bool.false_eq_true, if_false]
      · simp only [h, Bool.not_true, Bool.and_false, Bool.false_eq_true, if_false]
      · by_cases hcond : (input.contains '.' && !(input.contains ' ')) = true
        · simp only [hcond, reduceIte]
          simpa using h
        · simp only [if_neg hcond]
    unfold resolve_input
    rw [hdirect, hdomain]
    rfl
  · exact ⟨⟨"https".toList, some "duckduckgo.com".toList, "/".toList,
      some ("q=".toList ++ byte_serialize "hello world".toList)⟩,
      by decide, by decide, rfl⟩

/-- Witness for the amended C2: branch (a) on a full URL, and branch (c) on
plain text. -/
theorem claim_C2_witness :
    resolve_input "https://example.com".toList =
        some ⟨"https".toList, some "example.com".toList, "/".toList, none⟩ ∧
      resolve_input "hello world".toList =
        Url.parse (DUCKDUCKGO_SEARCH ++ byte_serialize "hello world".toList) :=
  ⟨claim_C2_amended.1 "https://example.com".toList _ (by decide)
      (Or.inr (by decide)),
    claim_C2_amended.2.2.1 "hello world".toList (by decide)
      (Or.inl (by decide))⟩

/-! ## Glyph atlas builder (`src/chrome.rs`)

The builder depends on `fontdue` rasterization, an external library: "a
font and a target pixel size" enter the algorithm only through the per-
character rasterization results, so the embedding abstracts the pair as a
function `rast` from a character to its `fontdue::Metrics` (pixel width,
pixel height, advance, offsets) and its bitmap.  `f32` quantities that the
packing never computes with (advance, offsets) are carried as rationals. -/

/-- The `fontdue::Metrics` fields that `GlyphAtlas::build` reads. -/
structure Metrics where
  width : Nat
  height : Nat
  advance_width : Rat
  xmin : Rat
  ymin : Rat
  deriving DecidableEq, Repr

/-- Embedding of `struct GlyphInfo` (`src/chrome.rs:49`). -/
structure GlyphInfo where
  atlas_x : Nat
  atlas_y : Nat
  width : Nat
  height : Nat
  advance_x : Rat
  offset_x : Rat
  offset_y : Rat
  deriving DecidableEq, Repr

/-- The character set of the atlas: the 95 printable ASCII codepoints
(`(32u8..=126).map(|b| b as char)`). -/
def atlasChars : List Char := (List.range 95).map (fun i => Char.ofNat (32 + i))

/-- The fixed atlas width (`let atlas_width: u32 = 512`). -/
def atlasWidth : Nat := 512

/-- The mutable state of the packing loop of `GlyphAtlas::build`:
pen position, current row height, tentative atlas height, and the glyph
map.  The `HashMap` is embedded as an association list in insertion order
(its keys, the distinct characters, are unique). -/
structure PackState where
  x : Nat
  y : Nat
  row_height : Nat
  atlas_height : Nat
  glyphs : List (Char × GlyphInfo)
  deriving Repr

/-- One iteration of the packing loop (`src/chrome.rs:94-124`): wrap to a
new row when the glyph does not fit before the right edge, grow the
tentative height, update the row height, record the glyph, advance the
pen. -/
def packStep (rast : Char → Metrics × List Nat) (st : PackState) (c : Char) :
    PackState :=
  let m := (rast c).1
  let place (x0 y0 rh0 : Nat) : PackState :=
    let ah := if st.atlas_height < y0 + m.height then
        max (st.atlas_height * 2) (y0 + m.height + 1)
      else st.atlas_height
    ⟨x0 + m.width + 1, y0, max rh0 m.height, ah,
      st.glyphs ++ [(c, ⟨x0, y0, m.width, m.height, m.advance_width, m.xmin, m.ymin⟩)]⟩
  if atlasWidth < st.x + m.width then place 0 (st.y + st.row_height + 1) 0
  else place st.x st.y st.row_height

/-- Rust `u32::next_power_of_two`: the least power of two that is at least
`n` (`1` for `n ≤ 1`). -/
def nextPow2 (n : Nat) : Nat :=
  if n ≤ 1 then 1 else 2 * nextPow2 ((n + 1) / 2)
decreasing_by omega

/-- The bitmap-copy loop body (`src/chrome.rs:130-143`) for one glyph:
writes the bitmap rows into the pixel buffer, with the source's two
bounds guards. -/
def copyGlyph (aw : Nat) (info : GlyphInfo) (bitmap : List Nat)
    (pixels : List Nat) : List Nat :=
  (List.range info.height).foldl (fun px row =>
    (List.range info.width).foldl (fun px col =>
      let src_idx := row * info.width + col
      let dst_idx := (info.atlas_y + row) * aw + (info.atlas_x + col)
      if src_idx < bitmap.length && dst_idx < px.length then
        px.set dst_idx (bitmap.getD src_idx 0)
      else px) px) pixels

/-- Embedding of `struct GlyphAtlas` (`src/chrome.rs:67`). -/
structure GlyphAtlas where
  width : Nat
  height : Nat
  glyphs : List (Char × GlyphInfo)
  pixels : List Nat

/-- Embedding of `GlyphAtlas::build` (`src/chrome.rs:75`).  The final copy
loop iterates over the rasterized characters and looks each one up in the
map; since the map holds exactly one entry per character, in insertion
order, this is the fold over the recorded entries below. -/
def GlyphAtlas.build (rast : Char → Metrics × List Nat) : GlyphAtlas :=
  let st := atlasChars.foldl (packStep rast) ⟨0, 0, 0, 64, []⟩
  let atlas_height := max (nextPow2 (st.y + st.row_height + 1)) 64
  let pixels0 := List.replicate (atlasWidth * atlas_height) 0
  let pixels := st.glyphs.foldl
    (fun px e => copyGlyph atlasWidth e.2 (rast e.1).2 px) pixels0
  ⟨atlasWidth, atlas_height, st.glyphs, pixels⟩

/-- Two glyph-map entries of which both have nonzero width and height do
not have overlapping atlas boxes. -/
def noOverlapEntries (e1 e2 : Char × GlyphInfo) : Prop :=
  e1.2.width ≠ 0 → e1.2.height ≠ 0 → e2.2.width ≠ 0 → e2.2.height ≠ 0 →
  ¬(e1.2.atlas_x < e2.2.atlas_x + e2.2.width ∧
    e2.2.atlas_x < e1.2.atlas_x + e1.2.width ∧
    e1.2.atlas_y < e2.2.atlas_y + e2.2.height ∧
    e2.2.atlas_y < e1.2.atlas_y + e1.2.height)

/-- Invariant of the packing loop: every recorded glyph sits either on the
current row (left of the pen, within the row height) or in a finished row
wholly above the current row's top; every glyph fits horizontally; and no
two nonzero-size glyphs overlap. -/
structure PackInv (st : PackState) : Prop where
  rows : ∀ e ∈ st.glyphs,
    (e.2.atlas_y = st.y ∧ e.2.atlas_x + e.2.width < st.x ∧
      e.2.atlas_y + e.2.height ≤ st.y + st.row_height) ∨
    e.2.atlas_y + e.2.height ≤ st.y
  xb : ∀ e ∈ st.glyphs, e.2.atlas_x + e.2.width ≤ atlasWidth
  pw : List.Pairwise noOverlapEntries st.glyphs

theorem nextPow2_ge (n : Nat) : n ≤ nextPow2 n := by
  induction n using Nat.strong_induction_on with
  | _ n ih =>
    unfold nextPow2
    by_cases h : n ≤ 1
    · simp [h]
    · have h2 : (n + 1) / 2 < n := by omega
      have := ih _ h2
      simp only [h, if_false]
      omega

/-- Appending one glyph through `packStep` only appends to the glyph map. -/
theorem packStep_glyphs (rast : Char → Metrics × List Nat) (st : PackState)
    (c : Char) :
    ∃ info, (packStep rast st c).glyphs = st.glyphs ++ [(c, info)] := by
  unfold packStep
  by_cases hwrap : atlasWidth < st.x + (rast c).1.width
  · simp only [hwrap, reduceIte]
    exact ⟨_, rfl⟩
  · simp only [hwrap, reduceIte]
    exact ⟨_, rfl⟩

/-- The packing-step invariant is preserved when a glyph of admissible
width is placed. -/
theorem packStep_inv (rast : Char → Metrics × List Nat) {st : PackState}
    {c : Char} (hw : (rast c).1.width ≤ atlasWidth) (h : PackInv st) :
    PackInv (packStep rast st c) := by
  have key : ∀ x0 y0 rh0 ah : Nat,
      x0 + (rast c).1.width ≤ atlasWidth →
      (∀ e ∈ st.glyphs,
        (e.2.atlas_y = y0 ∧ e.2.atlas_x + e.2.width < x0 ∧
          e.2.atlas_y + e.2.height ≤ y0 + rh0) ∨
        e.2.atlas_y + e.2.height ≤ y0) →
      PackInv ⟨x0 + (rast c).1.width + 1, y0, max rh0 (rast c).1.height, ah,
        st.glyphs ++ [(c, ⟨x0, y0, (rast c).1.width, (rast c).1.height,
          (rast c).1.advance_width, (rast c).1.xmin, (rast c).1.ymin⟩)]⟩ := by
    intro x0 y0 rh0 ah hx hold
    have hmax1 : rh0 ≤ max rh0 (rast c).1.height := Nat.le_max_left _ _
    have hmax2 : (rast c).1.height ≤ max rh0 (rast c).1.height := Nat.le_max_right _ _
    refine ⟨?_, ?_, ?_⟩
    · intro e he
      dsimp only at he ⊢
      rcases List.mem_append.mp he with he | he
      · rcases hold e he with ⟨h1, h2, h3⟩ | h1
        · exact Or.inl ⟨h1, by omega, by omega⟩
        · exact Or.inr h1
      · simp only [List.mem_singleton] at he
        subst he
        dsimp only
        exact Or.inl ⟨rfl, by omega, by omega⟩
    · intro e he
      dsimp only at he ⊢
      rcases List.mem_append.mp he with he | he
      · exact h.xb e he
      · simp only [List.mem_singleton] at he
        subst he
        dsimp only
        exact hx
    · dsimp only
      rw [List.pairwise_append]
      refine ⟨h.pw, List.pairwise_singleton _ _, ?_⟩
      intro a ha b hb
      simp only [List.mem_singleton] at hb
      subst hb
      intro _ _ _ _
      rintro ⟨o1, o2, o3, o4⟩
      dsimp only at o1 o2 o3 o4
      rcases hold a ha with ⟨h1, h2, h3⟩ | h1
      · omega
      · omega
  unfold packStep
  by_cases hwrap : atlasWidth < st.x + (rast c).1.width
  · simp only [hwrap, reduceIte]
    refine key 0 (st.y + st.row_height + 1) 0 _ (by omega) ?_
    intro e he
    rcases h.rows e he with ⟨h1, h2, h3⟩ | h1
    · exact Or.inr (by omega)
    · exact Or.inr (by omega)
  · simp only [hwrap, reduceIte]
    refine key st.x st.y st.row_height _ (by omega) ?_
    exact h.rows

/-- The packing-loop invariant holds after folding over any character
list of admissible widths. -/
theorem foldl_packStep_inv (rast : Char → Metrics × List Nat)
    (cs : List Char) (hw : ∀ c ∈ cs, (rast c).1.width ≤ atlasWidth)
    {st : PackState} (h : PackInv st) :
    PackInv (cs.foldl (packStep rast) st) := by
  induction cs generalizing st with
  | nil => exact h
  | cons c rest ih =>
    exact ih (fun d hd => hw d (List.mem_cons_of_mem _ hd))
      (packStep_inv rast (hw c (List.mem_cons_self _ _)) h)

/-- Folding the packing loop records an entry for every processed
character (and keeps all previously recorded entries). -/
theorem foldl_packStep_mem (rast : Char → Metrics × List Nat)
    (cs : List Char) (st : PackState) (c : Char)
    (hc : c ∈ cs ∨ ∃ g, (c, g) ∈ st.glyphs) :
    ∃ g, (c, g) ∈ (cs.foldl (packStep rast) st).glyphs := by
  induction cs generalizing st with
  | nil =>
    rcases hc with hc | hc
    · cases hc
    · exact hc
  | cons d rest ih =>
    obtain ⟨info, hstep⟩ := packStep_glyphs rast st d
    rcases hc with hc | ⟨g, hg⟩
    · rcases List.mem_cons.mp hc with rfl | hc
      · refine ih _ (Or.inr ⟨info, ?_⟩)
        rw [hstep]
        exact List.mem_append_right _ (List.mem_singleton.mpr rfl)
      · exact ih _ (Or.inl hc)
    · refine ih _ (Or.inr ⟨g, ?_⟩)
      rw [hstep]
      exact List.mem_append_left _ hg

/-- `List.set` folded over index ranges keeps the length; hence the copy
loop keeps the pixel-buffer length. -/
theorem foldl_length_invariant {β : Type} (f : List Nat → β → List Nat)
    (hf : ∀ px b, (f px b).length = px.length) :
    ∀ (l : List β) (px : List Nat), (l.foldl f px).length = px.length := by
  intro l
  induction l with
  | nil => intro px; rfl
  | cons b rest ih =>
    intro px
    rw [List.foldl_cons, ih, hf]

theorem copyGlyph_length (aw : Nat) (info : GlyphInfo) (bitmap : List Nat)
    (pixels : List Nat) :
    (copyGlyph aw info bitmap pixels).length = pixels.length := by
  unfold copyGlyph
  refine foldl_length_invariant _ ?_ _ _
  intro px row
  refine foldl_length_invariant _ ?_ _ _
  intro px2 col
  dsimp only
  split
  · rw [List.length_set]
  · rfl

/-- A rasterization in which every glyph is 600 pixels wide (as a real
font yields at a large enough target size, since rasterized pixel widths
scale with the size). -/
def rastWide : Char → Metrics × List Nat := fun _ => (⟨600, 10, 1, 0, 0⟩, [])

set_option maxRecDepth 8000

/-- Counterexample to claim C7 as stated: quantified over every font and
target size, the in-bounds invariant fails — a rasterization whose glyphs
are wider than the fixed 512-pixel atlas width is placed at `x = 0` without
any clamping, so its box extends past the atlas's reported width. -/
theorem claim_C7_counterexample :
    ∃ e ∈ (GlyphAtlas.build rastWide).glyphs,
      (GlyphAtlas.build rastWide).width < e.2.atlas_x + e.2.width := by
  decide

set_option maxRecDepth 512

/-- Claim C7 (corrected).  Under the proviso that every rasterized glyph is
at most as wide as the fixed atlas width (true of any font rendered at the
sizes the chrome uses), the built atlas has: an entry for each of the 95
printable ASCII characters, every glyph box inside the atlas bounds, no two
nonzero-size glyph boxes overlapping, and a pixel buffer of exactly
`width * height` bytes. -/
theorem claim_C7_amended (rast : Char → Metrics × List Nat)
    (hw : ∀ c ∈ atlasChars, (rast c).1.width ≤ atlasWidth) :
    (∀ c ∈ atlasChars, ∃ g, (c, g) ∈ (GlyphAtlas.build rast).glyphs) ∧
    (∀ e ∈ (GlyphAtlas.build rast).glyphs,
      e.2.atlas_x + e.2.width ≤ (GlyphAtlas.build rast).width ∧
      e.2.atlas_y + e.2.height ≤ (GlyphAtlas.build rast).height) ∧
    List.Pairwise noOverlapEntries (GlyphAtlas.build rast).glyphs ∧
    (GlyphAtlas.build rast).pixels.length =
      (GlyphAtlas.build rast).width * (GlyphAtlas.build rast).height := by
  have hinv : PackInv (atlasChars.foldl (packStep rast) ⟨0, 0, 0, 64, []⟩) :=
    foldl_packStep_inv rast atlasChars hw
      ⟨fun e he => absurd he (List.not_mem_nil e),
        fun e he => absurd he (List.not_mem_nil e), List.Pairwise.nil⟩
  unfold GlyphAtlas.build
  dsimp only
  refine ⟨?_, ?_, hinv.pw, ?_⟩
  · intro c hc
    exact foldl_packStep_mem rast atlasChars _ c (Or.inl hc)
  · intro e he
    refine ⟨hinv.xb e he, ?_⟩
    have hnp := nextPow2_ge
      ((atlasChars.foldl (packStep rast) ⟨0, 0, 0, 64, []⟩).y +
        (atlasChars.foldl (packStep rast) ⟨0, 0, 0, 64, []⟩).row_height + 1)
    have hmax : nextPow2
        ((atlasChars.foldl (packStep rast) ⟨0, 0, 0, 64, []⟩).y +
          (atlasChars.foldl (packStep rast) ⟨0, 0, 0, 64, []⟩).row_height + 1) ≤
        max (nextPow2
          ((atlasChars.foldl (packStep rast) ⟨0, 0, 0, 64, []⟩).y +
            (atlasChars.foldl (packStep rast) ⟨0, 0, 0, 64, []⟩).row_height + 1)) 64 :=
      Nat.le_max_left _ _
    rcases hinv.rows e he with ⟨_, _, h3⟩ | h1 <;> omega
  · rw [foldl_length_invariant _ (fun px e => copyGlyph_length _ _ _ px),
      List.length_replicate]

/-- Witness for the amended C7: the all-zero rasterization (every glyph
zero-sized with advance 1, like a font whose glyphs are blank). -/
def rastZero : Char → Metrics × List Nat := fun _ => (⟨0, 0, 1, 0, 0⟩, [])

/-- Witness theorem for the amended C7 at `rastZero`. -/
theorem claim_C7_witness :
    (∀ c ∈ atlasChars, (rastZero c).1.width ≤ atlasWidth) ∧
    ((∀ c ∈ atlasChars, ∃ g, (c, g) ∈ (GlyphAtlas.build rastZero).glyphs) ∧
      (∀ e ∈ (GlyphAtlas.build rastZero).glyphs,
        e.2.atlas_x + e.2.width ≤ (GlyphAtlas.build rastZero).width ∧
        e.2.atlas_y + e.2.height ≤ (GlyphAtlas.build rastZero).height) ∧
      List.Pairwise noOverlapEntries (GlyphAtlas.build rastZero).glyphs ∧
      (GlyphAtlas.build rastZero).pixels.length =
        (GlyphAtlas.build rastZero).width * (GlyphAtlas.build rastZero).height) :=
  ⟨fun _ _ => Nat.zero_le _, claim_C7_amended rastZero (fun _ _ => Nat.zero_le _)⟩

/-! ## The renderer's character walk (`src/chrome.rs:388-434`)

The walk of `ChromeRenderer::draw` over the display text is embedded as a
pure function.  `f32` pen arithmetic is carried out exactly over `Rat`
(the walk only adds, subtracts and compares).  The glyph lookup
`self.atlas.glyphs.get(&c)` is abstracted as a function
`Char → Option GlyphInfo`; the remaining inputs are the configuration
quantities the loop reads. -/

/-- The inputs of the text-walk portion of `draw`. -/
structure DrawTextParams where
  atlasGet : Char → Option GlyphInfo
  font_size : Rat
  text_baseline_y : Rat
  max_text_x : Rat
  cursor_char_offset : Option Nat

/-- One emitted glyph quad: the pen position at emission and the call
`draw_textured_rect(gx, gy, w, h, ...)` it produces.  (The pen value is
recorded so the specification can speak about it; the quad itself is
`(gx, gy, w, h)`.) -/
structure Emit where
  pen : Rat
  gx : Rat
  gy : Rat
  w : Nat
  h : Nat
  deriving DecidableEq, Repr

/-- The quads drawn for one character at pen position `pen`
(`src/chrome.rs:402-419`): present in the atlas with nonzero size gives
one textured quad, otherwise nothing. -/
def glyphEmits (p : DrawTextParams) (pen : Rat) (c : Char) : List Emit :=
  match p.atlasGet c with
  | some glyph =>
    if 0 < glyph.width ∧ 0 < glyph.height then
      [⟨pen, pen + glyph.offset_x,
        p.text_baseline_y - glyph.offset_y - (glyph.height : Rat),
        glyph.width, glyph.height⟩]
    else []
  | none => []

/-- The pen advance for one character (`src/chrome.rs:420-428`): the
glyph's advance, else the space glyph's advance, else half the font
size. -/
def advanceFor (p : DrawTextParams) (c : Char) : Rat :=
  match p.atlasGet c with
  | some glyph => glyph.advance_x
  | none =>
    match p.atlasGet ' ' with
    | some sp => sp.advance_x
    | none => p.font_size * (1 / 2 : Rat)

/-- The character loop of `draw` (`src/chrome.rs:397-434`): walks the text
with a pen starting at `pen`, breaking as soon as the pen exceeds
`max_text_x`; returns the emitted quads, the detected cursor x (updated
after each character whose index + 1 matches `cursor_char_offset`), and
the final pen position. -/
def charWalk (p : DrawTextParams) :
    List Char → Nat → Rat → Option Rat → List Emit × Option Rat × Rat
  | [], _, pen, cx => ([], cx, pen)
  | c :: rest, idx, pen, cx =>
    if p.max_text_x < pen then ([], cx, pen)
    else
      let pen2 := pen + advanceFor p c
      let cx2 := if p.cursor_char_offset = some (idx + 1) then some pen2 else cx
      let w := charWalk p rest (idx + 1) pen2 cx2
      (glyphEmits p pen c ++ w.1, w.2.1, w.2.2)

/-- The full text run of `draw`: pen starts at `text_x`, and the cursor x
is pre-seeded when the cursor sits before any character
(`src/chrome.rs:393-395`). -/
def drawTextRun (p : DrawTextParams) (text : List Char) (text_x : Rat) :
    List Emit × Option Rat × Rat :=
  charWalk p text 0 text_x
    (if p.cursor_char_offset = some 0 then some text_x else none)

theorem mem_glyphEmits_pen {p : DrawTextParams} {pen : Rat} {c : Char}
    {e : Emit} (he : e ∈ glyphEmits p pen c) : e.pen = pen := by
  cases hg : p.atlasGet c with
  | none => simp [glyphEmits, hg] at he
  | some glyph =>
    simp only [glyphEmits, hg] at he
    split at he
    · rcases List.mem_singleton.mp he with rfl
      rfl
    · cases he

theorem charWalk_emits_nil_of_lt {p : DrawTextParams} {pen : Rat}
    (h : p.max_text_x < pen) (text : List Char) (idx : Nat)
    (cx : Option Rat) : (charWalk p text idx pen cx).1 = [] := by
  cases text with
  | nil => rfl
  | cons c rest =>
    unfold charWalk
    rw [if_pos h]

/-- Atlas-lookup for the C8 counterexample: a single 1×1 glyph of advance 1
for `'a'`. -/
def atlasGetOne : Char → Option GlyphInfo :=
  fun c => if c = 'a' then some ⟨0, 0, 1, 1, 1, 0, 0⟩ else none

/-- Draw parameters for the C8 counterexample: the pen starts exactly at
the right padding boundary (a configuration with no room between the left
text start and the right boundary). -/
def paramsOne : DrawTextParams := ⟨atlasGetOne, 16, 0, 10, none⟩

/-- Counterexample to claim C8 as stated: the loop breaks only when the pen
strictly exceeds the boundary, so a glyph whose pen position equals the
boundary is still drawn — here a quad is emitted at `gx = 10`, *at* the
boundary `max_text_x = 10`, contradicting "no glyph quad is emitted at or
beyond that boundary". -/
theorem claim_C8_counterexample :
    ∃ e ∈ (drawTextRun paramsOne ['a'] 10).1,
      paramsOne.max_text_x ≤ e.gx ∧ paramsOne.max_text_x ≤ e.pen := by
  have hrun : (drawTextRun paramsOne ['a'] 10).1 = [⟨10, 10, -1, 1, 1⟩] := by
    simp [drawTextRun, charWalk, glyphEmits, advanceFor, atlasGetOne, paramsOne]
  rw [hrun]
  exact ⟨⟨10, 10, -1, 1, 1⟩, List.mem_singleton.mpr rfl, by norm_num [paramsOne],
    by norm_num [paramsOne]⟩

/-- Claim C8 (corrected).  Truncation, not wrapping: every glyph quad is
emitted while the pen is at most the right padding boundary (a quad may
still be emitted with the pen exactly at the boundary — the break condition
is strict), and once the pen exceeds the boundary nothing further is drawn:
characters appended past the truncation point leave the emitted quads
unchanged. -/
theorem claim_C8_amended (p : DrawTextParams) (text rest : List Char)
    (idx : Nat) (pen : Rat) (cx : Option Rat) :
    (∀ e ∈ (charWalk p text idx pen cx).1, e.pen ≤ p.max_text_x) ∧
    (p.max_text_x < (charWalk p text idx pen cx).2.2 →
      (charWalk p (text ++ rest) idx pen cx).1 =
        (charWalk p text idx pen cx).1) := by
  induction text generalizing idx pen cx with
  | nil =>
    refine ⟨fun e he => absurd he (List.not_mem_nil e), fun h => ?_⟩
    rw [List.nil_append]
    exact charWalk_emits_nil_of_lt h rest idx cx
  | cons c tl ih =>
    by_cases hlt : p.max_text_x < pen
    · refine ⟨?_, fun h => ?_⟩
      · rw [charWalk_emits_nil_of_lt hlt]
        exact fun e he => absurd he (List.not_mem_nil e)
      · rw [charWalk_emits_nil_of_lt hlt, charWalk_emits_nil_of_lt hlt]
    · have hstep : ∀ tl2 : List Char, charWalk p (c :: tl2) idx pen cx =
          (glyphEmits p pen c ++
            (charWalk p tl2 (idx + 1) (pen + advanceFor p c)
              (if p.cursor_char_offset = some (idx + 1) then
                some (pen + advanceFor p c) else cx)).1,
           (charWalk p tl2 (idx + 1) (pen + advanceFor p c)
              (if p.cursor_char_offset = some (idx + 1) then
                some (pen + advanceFor p c) else cx)).2.1,
           (charWalk p tl2 (idx + 1) (pen + advanceFor p c)
              (if p.cursor_char_offset = some (idx + 1) then
                some (pen + advanceFor p c) else cx)).2.2) := by
        intro tl2
        simp only [charWalk, if_neg hlt]
      refine ⟨?_, fun h => ?_⟩
      · intro e he
        rw [hstep tl] at he
        dsimp only at he
        rcases List.mem_append.mp he with he | he
        · rw [mem_glyphEmits_pen he]
          exact le_of_not_lt hlt
        · exact (ih (idx + 1) (pen + advanceFor p c) _).1 e he
      · rw [hstep tl] at h
        dsimp only at h
        rw [List.cons_append, hstep (tl ++ rest), hstep tl]
        dsimp only
        rw [(ih (idx + 1) (pen + advanceFor p c) _).2 h]

/-- Witness for the amended C8: the walk emitting a quad at the boundary
satisfies the pen bound, and appending a character after the pen has
passed the boundary leaves the emitted quads unchanged. -/
theorem claim_C8_witness :
    (∀ e ∈ (charWalk paramsOne ['a'] 0 10 none).1,
        e.pen ≤ paramsOne.max_text_x) ∧
      (charWalk paramsOne (['a'] ++ ['b']) 0 10 none).1 =
        (charWalk paramsOne ['a'] 0 10 none).1 :=
  ⟨(claim_C8_amended paramsOne ['a'] ['b'] 0 10 none).1,
    (claim_C8_amended paramsOne ['a'] ['b'] 0 10 none).2
      (by norm_num [charWalk, advanceFor, atlasGetOne, paramsOne])⟩
